import Mathlib

/-!
Shallow embedding of the `rats` terminal file browser core
(`src/fuzzy.rs` and `src/app.rs` — the modal variant, which the claims cite),
together with proofs settling the specification claims.

Modelling conventions:

* A filesystem path (`PathBuf`) is modelled as the list of its components,
  rooted at `/` (the root is `[]`).  `PathBuf::join("..")` literally appends
  a `".."` component without normalisation, exactly as in Rust, and
  `Path::file_name` returns `none` when the final component is `".."`,
  matching the documented Rust behaviour.
* The filesystem itself is a record of three oracles (`readDir`, `isDir`,
  `readFile`).  `readDir p = (entries, ok)` models iterating
  `fs::read_dir(p)`: `entries` are the entry paths successfully yielded in
  order, and `ok = false` means the iteration ended in an `io::Error` —
  either the `read_dir` call itself failing (then `entries = []`) or a
  broken entry iterator whose `entry?` fails mid-iteration after `entries`
  were already yielded.  `readFile p = none` models `fs::read_to_string`
  failing.
* Rust strings are modelled as Lean `String` / `List Char`; `to_lowercase`
  is modelled per character by `Char.toLower`, which agrees with Rust on
  ASCII.  File content is treated as a sequence of one-byte characters, so
  `String::len` (bytes) coincides with the character count of the model.
* Rust's `sort_by` is a stable sort; it is modelled by `List.insertionSort`,
  which is also stable, so the two produce identical output for the total
  preorders used here.
* `i32` scores are modelled by `Int`; the accumulated score is bounded by
  40 per matched character, far from the `i32` range for any realistic
  filename, and Rust debug builds abort on overflow, so wrap-around is not
  modelled.
-/

namespace Rats

/-! ## Ranking engine, from `src/fuzzy.rs` -/

/-- Result record of `fuzzy_match` (struct `FuzzyMatch` in `src/fuzzy.rs`). -/
structure FuzzyMatch where
  score : Int
  matched_indices : List Nat
deriving DecidableEq

/-- Per-character model of `str::to_lowercase` (agrees with Rust on ASCII). -/
def toLowerChars (s : List Char) : List Char := s.map Char.toLower

/-- The separator characters rewarded by the ranking engine
(`src/fuzzy.rs:55`). -/
def sepChars : List Char := ['/', '_', '-', '.']

/-- The scan loop of `fuzzy_match` (`src/fuzzy.rs:35-62`): it walks the
lowercased candidate `rest` (whose full lowercased form is `tl`, used for
the look-behind separator test), carrying the enumeration index `tidx`, the
pattern cursor `pidx`, the accumulated `score`, the index of the last match
`last` and the accumulated matched indices `acc`.  It returns the final
pattern cursor, score and matched indices. -/
def fuzzyLoop (p tl : List Char) :
    List Char → Nat → Nat → Int → Option Nat → List Nat → Nat × Int × List Nat
  | [], _tidx, pidx, score, _last, acc => (pidx, score, acc)
  | c :: rest, tidx, pidx, score, last, acc =>
    if pidx < p.length ∧ c = p.getD pidx ' ' then
      fuzzyLoop p tl rest (tidx + 1) (pidx + 1)
        (score + 10
          + (match last with
             | some l => if tidx = l + 1 then (5 : Int) else 0
             | none => 0)
          + (if tidx = 0 then (15 : Int) else 0)
          + (if 0 < tidx ∧ tl.getD (tidx - 1) ' ' ∈ sepChars then (10 : Int) else 0))
        (some tidx) (acc ++ [tidx])
    else
      fuzzyLoop p tl rest (tidx + 1) pidx score last acc

/-- The scan of `fuzzy_match` over the lowercased pattern and candidate
(the `let pattern/text/..` block and `for` loop of `src/fuzzy.rs:25-62`). -/
def fuzzyRun (pattern text : List Char) : Nat × Int × List Nat :=
  fuzzyLoop (toLowerChars pattern) (toLowerChars text) (toLowerChars text) 0 0 0 none []

/-- The ranking engine `fuzzy_match` (`src/fuzzy.rs:17-76`): empty patterns
always match with score 0; otherwise both strings are lowercased, the scan
loop runs, and the result is kept only if every pattern character was
matched, with a final length penalty. -/
def fuzzy_match (pattern text : List Char) : Option FuzzyMatch :=
  if pattern = [] then
    some { score := 0, matched_indices := [] }
  else
    if (fuzzyRun pattern text).1 = (toLowerChars pattern).length then
      some { score := (fuzzyRun pattern text).2.1 - ((toLowerChars text).length : Int),
             matched_indices := (fuzzyRun pattern text).2.2 }
    else
      none

/-- Specification-side per-match bonus (the four `score +=` increments of
`src/fuzzy.rs:40-57` for one matched character): +10 base, +5 when the match
index is one past the previous match, +15 at candidate index 0, +10 after a
separator character of the lowercased candidate `tl`. -/
def matchBonus (tl : List Char) (last : Option Nat) (tidx : Nat) : Int :=
  10
    + (match last with
       | some l => if tidx = l + 1 then (5 : Int) else 0
       | none => 0)
    + (if tidx = 0 then (15 : Int) else 0)
    + (if 0 < tidx ∧ tl.getD (tidx - 1) ' ' ∈ sepChars then (10 : Int) else 0)

/-- Specification-side total: sum of `matchBonus` over a list of match
indices, threading the previous match index. -/
def scoreOfIndices (tl : List Char) : Option Nat → List Nat → Int
  | _, [] => 0
  | last, i :: rest => matchBonus tl last i + scoreOfIndices tl (some i) rest

/-! ## Data model, from `src/app.rs` -/

/-- A filesystem path as the list of its components (`/` is `[]`). -/
abbrev Path := List String

/-- The literal parent component. -/
def dotdot : String := ".."

/-- The filesystem oracles.  `readDir p = (entries, ok)`: the entry paths
yielded in order by iterating `fs::read_dir(p)`, and whether the iteration
completed without error — `ok = false` covers both a failing `read_dir`
call (no entries yielded) and a broken entry iterator failing via `entry?`
after some entries were already yielded.  `readFile p = none` models
`fs::read_to_string` failing. -/
structure FS where
  readDir : Path → List Path × Bool
  isDir : Path → Bool
  readFile : Path → Option String

/-- Model of `Path::parent`: strip the final component; `none` at the
root. -/
def parent (p : Path) : Option Path :=
  match p with
  | [] => none
  | _ :: _ => some p.dropLast

/-- Model of `Path::file_name`: the final component, or `none` when the
path is the root or terminates in `..` (documented Rust behaviour). -/
def file_name (p : Path) : Option String :=
  match p.getLast? with
  | none => none
  | some c => if c = dotdot then none else some c

/-- Port of `safe_filename_to_string` (`src/app.rs:265-283`): the file name
when present; otherwise `".."` when the rendered path ends in `".."` (which
for component paths means the final component is `".."`), else
`"Unknown"`. -/
def safe_filename_to_string (p : Path) : String :=
  match file_name p with
  | some n => n
  | none => if p.getLast? = some dotdot then dotdot else "Unknown"

/-- Port of `safe_filename_for_matching` (`src/app.rs:285-291`): just the
(lossy) file name, `none` when `Path::file_name` is `none`. -/
def safe_filename_for_matching (p : Path) : Option String :=
  file_name p

/-- The two input modes (`src/mode.rs`). -/
inductive Mode where
  | normal
  | insert
deriving DecidableEq

/-- Startup configuration (`src/config.rs`), with the directory already
parsed into a path. -/
structure Config where
  directory : Path
  query : List Char
  json_mode : Bool
deriving DecidableEq

/-- The application state (struct `App` in `src/app.rs`); `list_state` keeps
only the selection of ratatui's `ListState`. -/
structure App where
  current_path : Path
  items : List Path
  list_state : Option Nat
  filter : List Char
  filtered_items : List (Nat × Int)
  config : Config
  preview_content : Option String
  preview_scroll : Nat
  mode : Mode
deriving DecidableEq

/-! ## Preview loader, from `src/app.rs` -/

/-- The deny-list of binary extensions (`src/app.rs:231-237`). -/
def binary_extensions : List String :=
  ["exe", "bin", "dll", "so", "dylib", "a", "o", "obj",
   "jpg", "jpeg", "png", "gif", "bmp", "ico", "tiff", "webp",
   "mp3", "mp4", "wav", "flac", "ogg", "avi", "mkv", "mov",
   "pdf", "doc", "docx", "xls", "xlsx", "ppt", "pptx",
   "zip", "tar", "gz", "bz2", "7z", "rar"]

/-- Model of `Path::extension`: the part of the file name after the last
`.`, none when there is no file name, no dot, or only a leading dot. -/
def extension (p : Path) : Option String :=
  match file_name p with
  | none => none
  | some n =>
    match (n.data.enum.filter fun ic => ic.2 = '.').getLast? with
    | none => none
    | some kd => if kd.1 = 0 then none else some (String.mk (n.data.drop (kd.1 + 1)))

/-- The extension-based binary check of `read_file_content`
(`src/app.rs:229-242`): lowercased extension against the deny-list. -/
def is_binary_ext (p : Path) : Bool :=
  match extension p with
  | some ext => decide (String.mk (toLowerChars ext.data) ∈ binary_extensions)
  | none => false

/-- Port of `App::read_file_content` (`src/app.rs:227-262`): binary
placeholder by extension or by an embedded NUL byte, a fixed unreadable
placeholder on read failure, and 50,000-byte truncation with a marker
naming the original size. -/
def read_file_content (fs : FS) (p : Path) : Option String :=
  if is_binary_ext p then
    (file_name p).map (fun n => "Binary file: " ++ n)
  else
    match fs.readFile p with
    | some content =>
      if Char.ofNat 0 ∈ content.data then
        (file_name p).map (fun n => "Binary file: " ++ n)
      else if 50000 < content.length then
        some (String.mk (content.data.take 50000) ++ "...\n\n[File truncated - "
          ++ toString content.length ++ " bytes total]")
      else
        some content
    | none => some "Could not read file"

/-- The entry `load_preview` previews, if any (`src/app.rs:202-225`): the
resolved selection when it is a non-directory with a real file name. -/
def previewFor (fs : FS) (a : App) : Option String :=
  match a.list_state with
  | some selected =>
    match a.filtered_items.get? selected with
    | some it =>
      match a.items.get? it.1 with
      | some path =>
        if !fs.isDir path
            && (((file_name path).map fun n => decide (n ≠ dotdot)).getD false) then
          read_file_content fs path
        else none
      | none => none
    | none => none
  | none => none

/-- Port of `App::load_preview` (`src/app.rs:202-225`): every branch either
stores the loaded content or clears it, and resets the scroll to 0. -/
def load_preview (fs : FS) (a : App) : App :=
  { a with preview_content := previewFor fs a, preview_scroll := 0 }

/-! ## Filter / selection model, from `src/app.rs` -/

/-- One iteration of the `update_filter` loop (`src/app.rs:75-81`): the
ranked pair for an enumerated item, when its file name exists and
fuzzy-matches the query. -/
def matchEntry (filter : List Char) (ip : Nat × Path) : Option (Nat × Int) :=
  match safe_filename_for_matching ip.2 with
  | some filename =>
    match fuzzy_match filter filename.data with
    | some m => some (ip.1, m.score)
    | none => none
  | none => none

/-- The RankedList recompute of `App::update_filter` (`src/app.rs:72-84`)
as a pure function of query and snapshot: keep every item whose file name
exists and fuzzy-matches the query, then stable-sort by descending score. -/
def computeFiltered (filter : List Char) (items : List Path) : List (Nat × Int) :=
  List.insertionSort (fun x y : Nat × Int => y.2 ≤ x.2)
    (items.enum.filterMap (matchEntry filter))

/-- Port of `App::update_filter` (`src/app.rs:72-93`): rebuild
`filtered_items`, reset the selection to the first item (or clear it), and
reload the preview. -/
def update_filter (fs : FS) (a : App) : App :=
  let sorted := computeFiltered a.filter a.items
  load_preview fs
    { a with
      filtered_items := sorted,
      list_state := if sorted = [] then none else some 0 }

/-- The Rust comparator of `App::load_directory`'s `sort_by`
(`src/app.rs:52-66`): `..` first, then directories before files, then the
file names in code-point (= byte) lexicographic order. -/
def entryOrder (fs : FS) (x y : Path) : Ordering :=
  if safe_filename_to_string x = dotdot then .lt
  else if safe_filename_to_string y = dotdot then .gt
  else
    match fs.isDir x, fs.isDir y with
    | true, false => .lt
    | false, true => .gt
    | _, _ =>
      compareOfLessAndEq (safe_filename_to_string x).data (safe_filename_to_string y).data

/-- The snapshot contents of `load_directory` just before the fallible
`fs::read_dir` call (`src/app.rs:38-43`): cleared, plus the parent marker
when the current path is not a root. -/
def parentItems (b : App) : List Path :=
  if (parent b.current_path).isSome then [b.current_path ++ [dotdot]] else []

/-- The sorted snapshot built by a successful `load_directory`
(`src/app.rs:46-66`): the parent marker and the directory entries, stably
sorted by the `sort_by` comparator. -/
def sortedEntries (fs : FS) (b : App) (entries : List Path) : List Path :=
  List.insertionSort (fun x y => entryOrder fs x y ≠ .gt) (parentItems b ++ entries)

/-- Port of `App::load_directory` (`src/app.rs:37-70`).  Note the order of
effects in the source: `items` is cleared and the parent marker pushed
before the read loop, and each yielded entry is pushed before the next
`entry?` can fail, so on failure the returned state holds the parent
marker plus the raw (unsorted) entries yielded before the error.  The
`Bool` is `true` on success (`Ok(())`), `false` when the read failed
(`Err`). -/
def load_directory (fs : FS) (a : App) : App × Bool :=
  match fs.readDir a.current_path with
  | (entries, false) => ({ a with items := parentItems a ++ entries }, false)
  | (entries, true) =>
    (update_filter fs { a with items := sortedEntries fs a entries }, true)

/-- The wraparound successor index computed by `App::next`
(`src/app.rs:96-105`). -/
def nextIndex (a : App) : Nat :=
  match a.list_state with
  | some i => if a.filtered_items.length - 1 ≤ i then 0 else i + 1
  | none => 0

/-- Port of `App::next` (`src/app.rs:95-110`): advance with wraparound;
no state change when the ranked list is empty. -/
def next (fs : FS) (a : App) : App :=
  if a.filtered_items ≠ [] then load_preview fs { a with list_state := some (nextIndex a) }
  else a

/-- The wraparound predecessor index computed by `App::previous`
(`src/app.rs:113-122`). -/
def previousIndex (a : App) : Nat :=
  match a.list_state with
  | some i => if i = 0 then a.filtered_items.length - 1 else i - 1
  | none => 0

/-- Port of `App::previous` (`src/app.rs:112-127`): retreat with
wraparound; no state change when the ranked list is empty. -/
def previous (fs : FS) (a : App) : App :=
  if a.filtered_items ≠ [] then load_preview fs { a with list_state := some (previousIndex a) }
  else a

/-- Port of `App::go_to_top` (`src/app.rs:188-193`). -/
def go_to_top (fs : FS) (a : App) : App :=
  if a.filtered_items ≠ [] then load_preview fs { a with list_state := some 0 } else a

/-- Port of `App::go_to_bottom` (`src/app.rs:195-200`). -/
def go_to_bottom (fs : FS) (a : App) : App :=
  if a.filtered_items ≠ [] then
    load_preview fs { a with list_state := some (a.filtered_items.length - 1) }
  else a

/-- Port of `App::add_char_to_filter` (`src/app.rs:169-172`). -/
def add_char_to_filter (fs : FS) (a : App) (c : Char) : App :=
  update_filter fs { a with filter := a.filter ++ [c] }

/-- Port of `App::remove_char_from_filter` (`src/app.rs:174-177`);
`String::pop` drops the last character. -/
def remove_char_from_filter (fs : FS) (a : App) : App :=
  update_filter fs { a with filter := a.filter.dropLast }

/-- Port of `App::clear_filter` (`src/app.rs:179-182`). -/
def clear_filter (fs : FS) (a : App) : App :=
  update_filter fs { a with filter := [] }

/-- Port of `App::set_mode` (`src/app.rs:184-186`). -/
def set_mode (a : App) (m : Mode) : App :=
  { a with mode := m }

/-- The navigation target of `App::enter_selected` (`src/app.rs:146-155`):
the parent marker goes to the parent of the current path (unchanged at the
root), any other directory entry goes to its own path. -/
def enterTarget (a : App) (path : Path) : Path :=
  if safe_filename_to_string path = dotdot then
    match parent a.current_path with
    | some par => par
    | none => a.current_path
  else path

/-- Port of `App::enter_selected` (`src/app.rs:141-167`), continued: the
directory case updates `current_path` to `enterTarget`, clears the filter
and reloads, turning a load failure into the propagated error. -/
def enter_selected (fs : FS) (a : App) : App × Except Unit (Option Path) :=
  match a.list_state with
  | none => (a, .ok none)
  | some selected =>
    match a.filtered_items.get? selected with
    | none => (a, .ok none)
    | some it =>
      match a.items.get? it.1 with
      | none => (a, .ok none)
      | some path =>
        if fs.isDir path then
          if (load_directory fs { a with current_path := enterTarget a path, filter := [] }).2
          then
            ((load_directory fs
              { a with current_path := enterTarget a path, filter := [] }).1, .ok none)
          else
            ((load_directory fs
              { a with current_path := enterTarget a path, filter := [] }).1, .error ())
        else
          (a, .ok (some path))

/-! ## Invariants and specification-side orders -/

/-- The cursor-bound invariant: no selection exactly when the ranked list is
empty, otherwise the selected index is in bounds. -/
def cursorInv (a : App) : Prop :=
  a.list_state.elim (a.filtered_items = []) (fun i => i < a.filtered_items.length)

instance cursorInvDecidable (a : App) : Decidable (cursorInv a) :=
  match h : a.list_state with
  | none => decidable_of_iff (a.filtered_items = []) (by simp [cursorInv, h])
  | some i => decidable_of_iff (i < a.filtered_items.length) (by simp [cursorInv, h])

/-- The specification's snapshot order for non-parent entries: directories
before files, entries of the same kind in code-point lexicographic filename
order. -/
def specOrder (fs : FS) (x y : Path) : Prop :=
  (fs.isDir x = true ∧ fs.isDir y = false) ∨
  (fs.isDir x = fs.isDir y ∧
    (safe_filename_to_string x).data ≤ (safe_filename_to_string y).data)

/-! ## Concrete fixtures used by the witnesses and counterexamples -/

/-- The characters of the candidate `go_to_top` from the spec's Example 1. -/
def goToTopChars : List Char := "go_to_top".data

/-- A filesystem on which every read fails immediately. -/
def fsFail : FS :=
  { readDir := fun _ => ([], false), isDir := fun _ => false, readFile := fun _ => none }

/-- A filesystem whose directory iterator yields one entry and then
breaks (a failing `entry?` mid-iteration). -/
def fsBroken : FS :=
  { readDir := fun _ => ([["d", "z.txt"]], false), isDir := fun _ => false,
    readFile := fun _ => none }

/-- A trivial configuration. -/
def cfgNull : Config := { directory := [], query := [], json_mode := false }

/-- A fresh application state over the given directory and snapshot. -/
def appBase (cur : Path) (items : List Path) : App :=
  { current_path := cur, items := items, list_state := none, filter := [],
    filtered_items := [], config := cfgNull, preview_content := none,
    preview_scroll := 0, mode := .normal }

/-- State for the failed-load scenarios: one known file, consistent ranked
list and cursor, in a directory whose read will fail. -/
def appC1 : App :=
  { appBase ["d"] [["d", "f.txt"]] with list_state := some 0, filtered_items := [(0, 0)] }

/-- State for the failed-navigation scenario: the single entry is a known
subdirectory whose read will fail. -/
def appC1dir : App :=
  { appBase ["d"] [["d", "sub"]] with list_state := some 0, filtered_items := [(0, 0)] }

/-- Filesystem where `sub` is a directory but all reads fail. -/
def fsC1dir : FS :=
  { readDir := fun _ => ([], false), isDir := fun p => decide (p = ["d", "sub"]),
    readFile := fun _ => none }

/-- State whose snapshot holds the synthetic parent marker and one file. -/
def appC2 : App :=
  appBase ["home", "user"] [["home", "user", ".."], ["home", "user", "a.txt"]]

/-- Demo filesystem of the spec's Example 2: `/home` holds files `b.txt`,
`A.txt` and subdirectory `Zdir`. -/
def fsDemo : FS :=
  { readDir := fun p =>
      if p = ["home"] then ([["home", "b.txt"], ["home", "A.txt"], ["home", "Zdir"]], true)
      else ([], false),
    isDir := fun p => decide (p ∈ ([["home"], ["home", "Zdir"], ["home", ".."]] : List Path)),
    readFile := fun _ => none }

/-- A fresh state over the demo filesystem. -/
def appDemo : App := appBase ["home"] []

/-- Base state for the append/erase scenario: two files `aa` and `ab`. -/
def appC8base : App := appBase ["r"] [["r", "aa"], ["r", "ab"]]

/-- The append/erase scenario's starting state: ranked list freshly
computed, then the cursor moved one step down (to index 1). -/
def appC8 : App := next fsFail (update_filter fsFail appC8base)

/-- Filesystem holding one large (50,001-byte) text file. -/
def fsBig : FS :=
  { readDir := fun _ => ([], false), isDir := fun _ => false,
    readFile := fun p =>
      if p = ["d", "big.txt"] then some (String.mk (List.replicate 50001 'x')) else none }

/-! ## Lemmas about the scan loop -/

theorem fuzzyLoop_pidx_mono (p tl : List Char) (rest : List Char) :
    ∀ tidx pidx score last acc,
      pidx ≤ (fuzzyLoop p tl rest tidx pidx score last acc).1 := by
  induction rest with
  | nil => intro tidx pidx score last acc; simp [fuzzyLoop]
  | cons c rs ih =>
    intro tidx pidx score last acc
    simp only [fuzzyLoop]
    split
    · exact Nat.le_trans (Nat.le_succ _) (ih _ _ _ _ _)
    · exact ih _ _ _ _ _

theorem fuzzyLoop_pidx_frozen (p tl : List Char) (rest : List Char) :
    ∀ tidx pidx score last acc, p.length ≤ pidx →
      (fuzzyLoop p tl rest tidx pidx score last acc).1 = pidx := by
  induction rest with
  | nil => intro tidx pidx score last acc _; simp [fuzzyLoop]
  | cons c rs ih =>
    intro tidx pidx score last acc h
    simp only [fuzzyLoop]
    rw [if_neg (fun hc => absurd hc.1 (Nat.not_lt.mpr h))]
    exact ih _ _ _ _ _ h

theorem fuzzyLoop_sub (p tl : List Char) (rest : List Char) :
    ∀ tidx pidx score last acc,
      ((p.drop pidx).take ((fuzzyLoop p tl rest tidx pidx score last acc).1 - pidx)).Sublist
        rest := by
  induction rest with
  | nil => intro tidx pidx score last acc; simp [fuzzyLoop]
  | cons c rs ih =>
    intro tidx pidx score last acc
    simp only [fuzzyLoop]
    split
    next hc =>
      have hdrop : p.drop pidx = c :: p.drop (pidx + 1) := by
        rw [List.drop_eq_getElem_cons hc.1, ← List.getD_eq_getElem p ' ' hc.1, ← hc.2]
      have key : ∀ S : Int,
          ((p.drop pidx).take
            ((fuzzyLoop p tl rs (tidx + 1) (pidx + 1) S (some tidx) (acc ++ [tidx])).1
              - pidx)).Sublist (c :: rs) := by
        intro S
        have h1 := fuzzyLoop_pidx_mono p tl rs (tidx + 1) (pidx + 1) S (some tidx) (acc ++ [tidx])
        have h2 := ih (tidx + 1) (pidx + 1) S (some tidx) (acc ++ [tidx])
        rw [hdrop]
        have hk : (fuzzyLoop p tl rs (tidx + 1) (pidx + 1) S (some tidx) (acc ++ [tidx])).1
            - pidx
            = ((fuzzyLoop p tl rs (tidx + 1) (pidx + 1) S (some tidx) (acc ++ [tidx])).1
              - (pidx + 1)) + 1 := by omega
        rw [hk, List.take_succ_cons]
        exact List.Sublist.cons₂ c h2
      exact key _
    next => exact List.Sublist.cons _ (ih _ _ _ _ _)

theorem fuzzyLoop_score_decomp (p tl : List Char) (rest : List Char) :
    ∀ tidx pidx score last acc,
      ∃ ds, (fuzzyLoop p tl rest tidx pidx score last acc).2.2 = acc ++ ds ∧
        (fuzzyLoop p tl rest tidx pidx score last acc).2.1
          = score + scoreOfIndices tl last ds := by
  induction rest with
  | nil =>
    intro tidx pidx score last acc
    exact ⟨[], by simp [fuzzyLoop, scoreOfIndices]⟩
  | cons c rs ih =>
    intro tidx pidx score last acc
    simp only [fuzzyLoop]
    split
    next hc =>
      have key : ∀ S : Int, S = score + matchBonus tl last tidx →
          ∃ ds,
            (fuzzyLoop p tl rs (tidx + 1) (pidx + 1) S (some tidx) (acc ++ [tidx])).2.2
              = acc ++ ds ∧
            (fuzzyLoop p tl rs (tidx + 1) (pidx + 1) S (some tidx) (acc ++ [tidx])).2.1
              = score + scoreOfIndices tl last ds := by
        intro S hS
        obtain ⟨ds, hacc, hsc⟩ := ih (tidx + 1) (pidx + 1) S (some tidx) (acc ++ [tidx])
        refine ⟨tidx :: ds, ?_, ?_⟩
        · rw [hacc]; simp
        · rw [hsc, hS]
          simp only [scoreOfIndices]
          ring
      exact key _ (by unfold matchBonus; ring)
    next => exact ih _ _ _ _ _

theorem getD_append_last (p : List Char) (x : Char) :
    (p ++ [x]).getD p.length ' ' = x := by
  induction p with
  | nil => rfl
  | cons a as ih => simp [ih]

theorem fuzzyLoop_append_min (p : List Char) (x : Char) (tl : List Char) (rest : List Char) :
    ∀ tidx pidx score last acc, pidx ≤ p.length →
      (fuzzyLoop p tl rest tidx pidx score last acc).1 =
        min ((fuzzyLoop (p ++ [x]) tl rest tidx pidx score last acc).1) p.length := by
  induction rest with
  | nil =>
    intro tidx pidx score last acc h
    simp only [fuzzyLoop]
    omega
  | cons c rs ih =>
    intro tidx pidx score last acc h
    rcases Nat.lt_or_ge pidx p.length with hlt | hge
    · have hg : (p ++ [x]).getD pidx ' ' = p.getD pidx ' ' :=
        List.getD_append _ _ _ _ hlt
      by_cases hc : c = p.getD pidx ' '
      · have h1 : pidx < p.length ∧ c = p.getD pidx ' ' := ⟨hlt, hc⟩
        have h2 : pidx < (p ++ [x]).length ∧ c = (p ++ [x]).getD pidx ' ' :=
          ⟨by simp; omega, by rw [hg]; exact hc⟩
        simp only [fuzzyLoop, if_pos h1, if_pos h2]
        exact ih _ _ _ _ _ hlt
      · have h1 : ¬ (pidx < p.length ∧ c = p.getD pidx ' ') := fun hx => hc hx.2
        have h2 : ¬ (pidx < (p ++ [x]).length ∧ c = (p ++ [x]).getD pidx ' ') :=
          fun hx => hc (by rw [← hg]; exact hx.2)
        simp only [fuzzyLoop, if_neg h1, if_neg h2]
        exact ih _ _ _ _ _ h
    · have hpe : pidx = p.length := Nat.le_antisymm h hge
      have h1 : ¬ (pidx < p.length ∧ c = p.getD pidx ' ') := by
        intro hx
        exact absurd hx.1 (Nat.not_lt.mpr hge)
      by_cases hcx : c = x
      · have h2 : pidx < (p ++ [x]).length ∧ c = (p ++ [x]).getD pidx ' ' := by
          constructor
          · simp [hpe]
          · rw [hpe, getD_append_last]; exact hcx
        simp only [fuzzyLoop, if_pos h2, if_neg h1]
        rw [fuzzyLoop_pidx_frozen p tl rs _ _ _ _ _ hge]
        have key : ∀ S : Int,
            pidx = min
              ((fuzzyLoop (p ++ [x]) tl rs (tidx + 1) (pidx + 1) S (some tidx)
                (acc ++ [tidx])).1) p.length := by
          intro S
          have h3 := fuzzyLoop_pidx_mono (p ++ [x]) tl rs (tidx + 1) (pidx + 1) S (some tidx)
            (acc ++ [tidx])
          omega
        exact key _
      · have h2 : ¬ (pidx < (p ++ [x]).length ∧ c = (p ++ [x]).getD pidx ' ') := by
          intro hx
          have hx2 := hx.2
          rw [hpe, getD_append_last] at hx2
          exact hcx hx2
        simp only [fuzzyLoop, if_neg h1, if_neg h2]
        exact ih _ _ _ _ _ h

theorem fuzzy_match_append_isSome (q : List Char) (x : Char) (t : List Char)
    (h : (fuzzy_match (q ++ [x]) t).isSome = true) :
    (fuzzy_match q t).isSome = true := by
  by_cases hq : q = []
  · subst hq; simp [fuzzy_match]
  · have hqx : q ++ [x] ≠ [] := by simp
    unfold fuzzy_match at h ⊢
    rw [if_neg hq]
    rw [if_neg hqx] at h
    by_cases hs : (fuzzyRun (q ++ [x]) t).1 = (toLowerChars (q ++ [x])).length
    · have hmap : toLowerChars (q ++ [x]) = toLowerChars q ++ [x.toLower] := by
        simp [toLowerChars]
      have hmin : (fuzzyRun q t).1
          = min ((fuzzyRun (q ++ [x]) t).1) (toLowerChars q).length := by
        unfold fuzzyRun
        rw [hmap]
        exact fuzzyLoop_append_min (toLowerChars q) x.toLower (toLowerChars t)
          (toLowerChars t) 0 0 0 none [] (Nat.zero_le _)
      have hlen : (toLowerChars (q ++ [x])).length = (toLowerChars q).length + 1 := by
        simp [toLowerChars]
      rw [hs] at hmin
      rw [if_pos]
      · simp
      · rw [hmin, hlen]; omega
    · rw [if_neg hs] at h
      simp at h

/-! ## Claims about the ranking engine -/

/-- C3: if `fuzzy_match` returns a score then the lowercased pattern occurs
as a subsequence (in order) of the lowercased candidate, and the empty
pattern always succeeds with score 0. -/
theorem C3_match_subsequence (pattern text : List Char) :
    (∀ m, fuzzy_match pattern text = some m →
      (toLowerChars pattern).Sublist (toLowerChars text)) ∧
    (pattern = [] →
      fuzzy_match pattern text = some { score := 0, matched_indices := [] }) := by
  constructor
  · intro m hm
    by_cases hq : pattern = []
    · subst hq
      simp [toLowerChars]
    · unfold fuzzy_match at hm
      rw [if_neg hq] at hm
      by_cases hs : (fuzzyRun pattern text).1 = (toLowerChars pattern).length
      · have h1 := fuzzyLoop_sub (toLowerChars pattern) (toLowerChars text)
          (toLowerChars text) 0 0 0 none []
        unfold fuzzyRun at hs
        rw [hs] at h1
        simpa using h1
      · rw [if_neg hs] at hm
        simp at hm
  · intro hq
    subst hq
    rfl

/-- C3 witness: `gto` matches `go_to_top` (subsequence check at a concrete
input) and the empty pattern matches `abc` with score 0. -/
theorem C3_match_subsequence_witness :
    (toLowerChars ['g', 't', 'o']).Sublist (toLowerChars goToTopChars) ∧
    fuzzy_match [] ['a', 'b', 'c'] = some { score := 0, matched_indices := [] } :=
  ⟨(C3_match_subsequence ['g', 't', 'o'] goToTopChars).1
      { score := 51, matched_indices := [0, 3, 4] } (by decide),
   (C3_match_subsequence [] ['a', 'b', 'c']).2 rfl⟩

/-- C6: for a non-empty pattern, a successful match's score is the sum of
the per-match bonuses (+10 base, +5 consecutive, +15 at index 0, +10 after
a separator) over the matched indices, minus the candidate's character
length. -/
theorem C6_score_formula (pattern text : List Char) (m : FuzzyMatch)
    (hne : pattern ≠ []) (hm : fuzzy_match pattern text = some m) :
    m.score = scoreOfIndices (toLowerChars text) none m.matched_indices
      - (text.length : Int) := by
  unfold fuzzy_match at hm
  rw [if_neg hne] at hm
  by_cases hs : (fuzzyRun pattern text).1 = (toLowerChars pattern).length
  · rw [if_pos hs] at hm
    injection hm with hm2
    subst hm2
    obtain ⟨ds, hacc, hsc⟩ := fuzzyLoop_score_decomp (toLowerChars pattern)
      (toLowerChars text) (toLowerChars text) 0 0 0 none []
    have hlen : ((toLowerChars text).length : Int) = (text.length : Int) := by
      simp [toLowerChars]
    simp only [List.nil_append] at hacc
    unfold fuzzyRun
    simp only [hsc, hacc, hlen, zero_add]
  · rw [if_neg hs] at hm
    simp at hm

/-- C6 witness: the score 51 of matching `gto` against `go_to_top` equals
the bonus sum over its matched indices `[0, 3, 4]` minus the length 9. -/
theorem C6_score_formula_witness :
    (51 : Int) = scoreOfIndices (toLowerChars goToTopChars) none [0, 3, 4]
      - (goToTopChars.length : Int) := by
  have h := C6_score_formula ['g', 't', 'o'] goToTopChars
    { score := 51, matched_indices := [0, 3, 4] } (by decide) (by decide)
  simpa using h

/-! ## Lemmas about the filter/selection model -/

theorem update_filter_filtered (fs : FS) (a : App) :
    (update_filter fs a).filtered_items = computeFiltered a.filter a.items := rfl

theorem update_filter_list_state (fs : FS) (a : App) :
    (update_filter fs a).list_state =
      (if computeFiltered a.filter a.items = [] then none else some 0) := rfl

theorem update_filter_cursorInv (fs : FS) (a : App) : cursorInv (update_filter fs a) := by
  unfold cursorInv
  simp only [update_filter_filtered, update_filter_list_state]
  by_cases h : computeFiltered a.filter a.items = []
  · rw [if_pos h]
    simpa [Option.elim] using h
  · rw [if_neg h]
    simpa [Option.elim] using List.length_pos.mpr h

theorem load_directory_failure (fs : FS) (b : App) (entries : List Path)
    (h : fs.readDir b.current_path = (entries, false)) :
    load_directory fs b = ({ b with items := parentItems b ++ entries }, false) := by
  simp only [load_directory, h]

theorem load_directory_success (fs : FS) (b : App) (entries : List Path)
    (h : fs.readDir b.current_path = (entries, true)) :
    load_directory fs b
      = (update_filter fs { b with items := sortedEntries fs b entries }, true) := by
  simp only [load_directory, h]

theorem load_directory_cursorInv (fs : FS) (a : App) (h : cursorInv a) :
    cursorInv (load_directory fs a).1 := by
  rcases hrd : fs.readDir a.current_path with ⟨entries, ok⟩
  cases ok
  · rw [load_directory_failure fs a entries hrd]
    exact h
  · rw [load_directory_success fs a entries hrd]
    exact update_filter_cursorInv fs _

theorem cursorInv_set (fs : FS) (a : App) (i : Nat) (h : i < a.filtered_items.length) :
    cursorInv (load_preview fs { a with list_state := some i }) := by
  unfold cursorInv load_preview
  simpa [Option.elim] using h

theorem cursorInv_bound (a : App) (i : Nat) (h : cursorInv a) (hi : a.list_state = some i) :
    i < a.filtered_items.length := by
  unfold cursorInv at h
  rw [hi] at h
  simpa [Option.elim] using h

theorem nextIndex_lt (a : App) (hne : a.filtered_items ≠ []) :
    nextIndex a < a.filtered_items.length := by
  have hlen : 0 < a.filtered_items.length := List.length_pos.mpr hne
  unfold nextIndex
  rcases a.list_state with _ | i
  · simpa using hlen
  · by_cases htop : a.filtered_items.length - 1 ≤ i
    · simpa [htop] using hlen
    · simp only [if_neg htop]
      omega

theorem previousIndex_lt (a : App) (h : cursorInv a) (hne : a.filtered_items ≠ []) :
    previousIndex a < a.filtered_items.length := by
  have hlen : 0 < a.filtered_items.length := List.length_pos.mpr hne
  unfold previousIndex
  rcases hls : a.list_state with _ | i
  · simpa using hlen
  · have hi := cursorInv_bound a i h hls
    by_cases h0 : i = 0
    · simp only [if_pos h0]
      omega
    · simp only [if_neg h0]
      omega

theorem next_cursorInv (fs : FS) (a : App) (h : cursorInv a) : cursorInv (next fs a) := by
  unfold next
  by_cases hne : a.filtered_items ≠ []
  · rw [if_pos hne]
    exact cursorInv_set fs a _ (nextIndex_lt a hne)
  · rw [if_neg hne]
    exact h

theorem previous_cursorInv (fs : FS) (a : App) (h : cursorInv a) :
    cursorInv (previous fs a) := by
  unfold previous
  by_cases hne : a.filtered_items ≠ []
  · rw [if_pos hne]
    exact cursorInv_set fs a _ (previousIndex_lt a h hne)
  · rw [if_neg hne]
    exact h

theorem go_to_top_cursorInv (fs : FS) (a : App) (h : cursorInv a) :
    cursorInv (go_to_top fs a) := by
  unfold go_to_top
  by_cases hne : a.filtered_items ≠ []
  · rw [if_pos hne]
    exact cursorInv_set fs a 0 (List.length_pos.mpr hne)
  · rw [if_neg hne]
    exact h

theorem go_to_bottom_cursorInv (fs : FS) (a : App) (h : cursorInv a) :
    cursorInv (go_to_bottom fs a) := by
  unfold go_to_bottom
  by_cases hne : a.filtered_items ≠ []
  · rw [if_pos hne]
    have hlen : 0 < a.filtered_items.length := List.length_pos.mpr hne
    exact cursorInv_set fs a _ (by omega)
  · rw [if_neg hne]
    exact h

theorem enter_selected_cursorInv (fs : FS) (a : App) (h : cursorInv a) :
    cursorInv (enter_selected fs a).1 := by
  unfold enter_selected
  split
  · exact h
  · split
    · exact h
    · split
      · exact h
      · split
        · split
          · exact load_directory_cursorInv fs _ h
          · exact load_directory_cursorInv fs _ h
        · exact h

/-! ## Claims about the filter/selection model -/

/-- C4: after each public operation (directory load, filter edits, cursor
moves, activation) the cursor is `none` exactly when the ranked list is
empty and otherwise stays strictly within its bounds, provided the
invariant held beforehand. -/
theorem C4_cursor_bound_invariant (fs : FS) (a : App) (c : Char) (h : cursorInv a) :
    cursorInv (load_directory fs a).1 ∧
    cursorInv (add_char_to_filter fs a c) ∧
    cursorInv (remove_char_from_filter fs a) ∧
    cursorInv (clear_filter fs a) ∧
    cursorInv (next fs a) ∧
    cursorInv (previous fs a) ∧
    cursorInv (go_to_top fs a) ∧
    cursorInv (go_to_bottom fs a) ∧
    cursorInv (enter_selected fs a).1 :=
  ⟨load_directory_cursorInv fs a h,
   update_filter_cursorInv fs _,
   update_filter_cursorInv fs _,
   update_filter_cursorInv fs _,
   next_cursorInv fs a h,
   previous_cursorInv fs a h,
   go_to_top_cursorInv fs a h,
   go_to_bottom_cursorInv fs a h,
   enter_selected_cursorInv fs a h⟩

/-- C4 witness at a concrete state (one file, cursor on index 0). -/
theorem C4_cursor_bound_invariant_witness :
    cursorInv (load_directory fsFail appC1).1 ∧
    cursorInv (add_char_to_filter fsFail appC1 'z') ∧
    cursorInv (remove_char_from_filter fsFail appC1) ∧
    cursorInv (clear_filter fsFail appC1) ∧
    cursorInv (next fsFail appC1) ∧
    cursorInv (previous fsFail appC1) ∧
    cursorInv (go_to_top fsFail appC1) ∧
    cursorInv (go_to_bottom fsFail appC1) ∧
    cursorInv (enter_selected fsFail appC1).1 :=
  C4_cursor_bound_invariant fsFail appC1 'z' (by decide)

/-- C1 counterexample: when the directory read fails, the snapshot does not
remain as it was — `load_directory` has already cleared `items` and pushed
the parent marker before the failing read. -/
theorem C1_counterexample :
    (load_directory fsFail appC1).2 = false ∧
    (load_directory fsFail appC1).1.items ≠ appC1.items := by decide

/-- C1 amended: on a failed directory read the error is surfaced and the
query, ranked list, cursor and current path are unchanged, but the snapshot
does not survive: it is left holding the freshly re-added parent marker
(nothing at a root) followed by the raw, unsorted entries the iterator
yielded before the error — nothing when the `read_dir` call itself fails, a
proper prefix when a broken entry iterator fails mid-iteration; when the
failure happens inside `enter_selected`, `current_path` has additionally
already been moved to the target directory and the query already cleared
before the failing load. -/
theorem C1_failed_load_partial_state (fs : FS) (a : App) (entries : List Path)
    (h : fs.readDir a.current_path = (entries, false)) :
    ((load_directory fs a).2 = false ∧
     (load_directory fs a).1.filter = a.filter ∧
     (load_directory fs a).1.filtered_items = a.filtered_items ∧
     (load_directory fs a).1.list_state = a.list_state ∧
     (load_directory fs a).1.current_path = a.current_path ∧
     (load_directory fs a).1.items =
       (if (parent a.current_path).isSome then [a.current_path ++ [dotdot]] else [])
         ++ entries) ∧
    (∀ selected it path entries2, a.list_state = some selected →
      a.filtered_items.get? selected = some it →
      a.items.get? it.1 = some path →
      fs.isDir path = true →
      safe_filename_to_string path ≠ dotdot →
      fs.readDir path = (entries2, false) →
      (enter_selected fs a).2 = .error () ∧
      (enter_selected fs a).1.current_path = path ∧
      (enter_selected fs a).1.filter = [] ∧
      (enter_selected fs a).1.filtered_items = a.filtered_items ∧
      (enter_selected fs a).1.list_state = a.list_state ∧
      (enter_selected fs a).1.items =
        ((if (parent path).isSome then [path ++ [dotdot]] else []) ++ entries2)) := by
  constructor
  · rw [load_directory_failure fs a entries h]
    exact ⟨rfl, rfl, rfl, rfl, rfl, rfl⟩
  · intro selected it path entries2 hsel hit hpath hdir hname hrd2
    have htarget : enterTarget a path = path := by
      unfold enterTarget
      rw [if_neg hname]
    have hval : enter_selected fs a
        = ((load_directory fs
            { a with current_path := path, filter := [], list_state := some selected }).1,
           .error ()) := by
      simp only [enter_selected, hsel, hit, hpath, hdir, htarget, eq_self_iff_true, if_true]
      rw [load_directory_failure fs
        { a with current_path := path, filter := [], list_state := some selected }
        entries2 hrd2]
      simp
    rw [hval, load_directory_failure fs
      { a with current_path := path, filter := [], list_state := some selected }
      entries2 hrd2]
    exact ⟨rfl, rfl, rfl, rfl, hsel.symm, rfl⟩

/-- C1 witness: concrete failed loads — a broken iterator that yielded one
raw entry before failing, and a failing navigation through
`enter_selected`. -/
theorem C1_failed_load_partial_state_witness :
    (load_directory fsBroken appC1).2 = false ∧
    (load_directory fsBroken appC1).1.items = [["d", ".."], ["d", "z.txt"]] ∧
    (enter_selected fsC1dir appC1dir).2 = .error () ∧
    (enter_selected fsC1dir appC1dir).1.current_path = ["d", "sub"] := by
  have h1 := C1_failed_load_partial_state fsBroken appC1 [["d", "z.txt"]] rfl
  have h2 := (C1_failed_load_partial_state fsC1dir appC1dir [] rfl).2 0 (0, 0)
    ["d", "sub"] [] rfl rfl rfl (by decide) (by decide) rfl
  refine ⟨h1.1.1, ?_, h2.1, h2.2.1⟩
  rw [h1.1.2.2.2.2.2]
  rfl

/-- C2 (evidence of the divergence): with an empty query, `update_filter`
omits the synthetic parent marker (snapshot index 0) from the ranked list,
because the parent path's `file_name` is `none`; only the real file
(index 1) is ranked, with score 0. -/
theorem C2_parent_marker_dropped :
    safe_filename_for_matching (["home", "user", ".."] : Path) = none ∧
    appC2.filter = [] ∧
    appC2.items.get? 0 = some ["home", "user", ".."] ∧
    (update_filter fsFail appC2).filtered_items = [(1, 0)] := by decide

/-! ## Lemmas about the snapshot sort order -/

theorem compareOfLessAndEq_ne_gt (s t : List Char) :
    compareOfLessAndEq s t ≠ Ordering.gt ↔ s ≤ t := by
  unfold compareOfLessAndEq
  by_cases h1 : s < t
  · simp [h1, le_of_lt h1]
  · by_cases h2 : s = t
    · simp [h1, h2]
    · have h3 : ¬ s ≤ t := by
        rcases lt_trichotomy s t with h | h | h
        · exact absurd h h1
        · exact absurd h h2
        · exact not_le_of_lt h
      simp [h1, h2, h3]

theorem entryOrder_ne_gt_iff (fs : FS) (x y : Path)
    (hx : safe_filename_to_string x ≠ dotdot) (hy : safe_filename_to_string y ≠ dotdot) :
    (entryOrder fs x y ≠ .gt) ↔ specOrder fs x y := by
  unfold entryOrder specOrder
  rw [if_neg hx, if_neg hy]
  cases hdx : fs.isDir x <;> cases hdy : fs.isDir y <;>
    simp [compareOfLessAndEq_ne_gt]

theorem entryOrder_total (fs : FS) (x y : Path) :
    entryOrder fs x y ≠ .gt ∨ entryOrder fs y x ≠ .gt := by
  by_cases hx : safe_filename_to_string x = dotdot
  · left
    unfold entryOrder
    rw [if_pos hx]
    simp
  · by_cases hy : safe_filename_to_string y = dotdot
    · right
      unfold entryOrder
      rw [if_pos hy]
      simp
    · rw [entryOrder_ne_gt_iff fs x y hx hy, entryOrder_ne_gt_iff fs y x hy hx]
      unfold specOrder
      cases hdx : fs.isDir x <;> cases hdy : fs.isDir y
      · rcases le_total (safe_filename_to_string x).data (safe_filename_to_string y).data
          with h | h
        · exact Or.inl (Or.inr ⟨rfl, h⟩)
        · exact Or.inr (Or.inr ⟨rfl, h⟩)
      · exact Or.inr (Or.inl ⟨rfl, rfl⟩)
      · exact Or.inl (Or.inl ⟨rfl, rfl⟩)
      · rcases le_total (safe_filename_to_string x).data (safe_filename_to_string y).data
          with h | h
        · exact Or.inl (Or.inr ⟨rfl, h⟩)
        · exact Or.inr (Or.inr ⟨rfl, h⟩)

theorem entryOrder_trans (fs : FS) (x y z : Path)
    (h1 : entryOrder fs x y ≠ .gt) (h2 : entryOrder fs y z ≠ .gt) :
    entryOrder fs x z ≠ .gt := by
  by_cases hx : safe_filename_to_string x = dotdot
  · unfold entryOrder
    rw [if_pos hx]
    simp
  · by_cases hy : safe_filename_to_string y = dotdot
    · exfalso
      apply h1
      unfold entryOrder
      rw [if_neg hx, if_pos hy]
    · by_cases hz : safe_filename_to_string z = dotdot
      · exfalso
        apply h2
        unfold entryOrder
        rw [if_neg hy, if_pos hz]
      · rw [entryOrder_ne_gt_iff fs x y hx hy] at h1
        rw [entryOrder_ne_gt_iff fs y z hy hz] at h2
        rw [entryOrder_ne_gt_iff fs x z hx hz]
        rcases h1 with ⟨ha, hb⟩ | ⟨ha, hb⟩ <;> rcases h2 with ⟨hc, hd⟩ | ⟨hc, hd⟩
        · rw [hb] at hc
          simp at hc
        · exact Or.inl ⟨ha, by rw [← hc]; exact hb⟩
        · exact Or.inl ⟨by rw [ha]; exact hc, hd⟩
        · exact Or.inr ⟨ha.trans hc, le_trans hb hd⟩

theorem file_name_concat_dotdot (p : Path) : file_name (p ++ [dotdot]) = none := by
  unfold file_name
  rw [List.getLast?_concat]
  simp

theorem sfts_parent_marker (p : Path) : safe_filename_to_string (p ++ [dotdot]) = dotdot := by
  unfold safe_filename_to_string
  rw [file_name_concat_dotdot, List.getLast?_concat]
  simp

theorem pairwise_specOrder_of_sorted (fs : FS) (l : List Path)
    (hs : l.Pairwise (fun u v => entryOrder fs u v ≠ .gt))
    (hn : ∀ q ∈ l, safe_filename_to_string q ≠ dotdot) :
    l.Pairwise (specOrder fs) := by
  refine List.Pairwise.imp_of_mem ?_ hs
  intro u v hu hv h
  exact (entryOrder_ne_gt_iff fs u v (hn u hu) (hn v hv)).mp h

/-- C5: a successful directory load sorts the snapshot parent-first, then
directories before files, and entries of the same kind alphabetically by
filename in code-point (= byte) order — assuming, as holds for real
directory listings, that no read entry is itself named `..`. -/
theorem C5_snapshot_order (fs : FS) (a : App) (entries : List Path)
    (hrd : fs.readDir a.current_path = (entries, true))
    (hwf : ∀ q ∈ entries, safe_filename_to_string q ≠ dotdot) :
    (load_directory fs a).2 = true ∧
    ((parent a.current_path).isSome = true →
      ∃ t, (load_directory fs a).1.items = (a.current_path ++ [dotdot]) :: t ∧
        t.Pairwise (specOrder fs)) ∧
    ((parent a.current_path).isSome = false →
      (load_directory fs a).1.items.Pairwise (specOrder fs)) := by
  haveI hTot : IsTotal Path (fun u v => entryOrder fs u v ≠ .gt) := ⟨entryOrder_total fs⟩
  haveI hTrans : IsTrans Path (fun u v => entryOrder fs u v ≠ .gt) :=
    ⟨fun u v w => entryOrder_trans fs u v w⟩
  have hrw := load_directory_success fs a entries hrd
  have hitems : (load_directory fs a).1.items = sortedEntries fs a entries := by
    rw [hrw]
    rfl
  have hsorted : (sortedEntries fs a entries).Pairwise (fun u v => entryOrder fs u v ≠ .gt) :=
    List.sorted_insertionSort _ _
  refine ⟨by rw [hrw], ?_, ?_⟩
  · intro hpar
    rw [hitems]
    have hpi : parentItems a = [a.current_path ++ [dotdot]] := by
      unfold parentItems
      rw [if_pos hpar]
    have hperm : (sortedEntries fs a entries).Perm ((a.current_path ++ [dotdot]) :: entries) := by
      unfold sortedEntries
      rw [hpi]
      exact List.perm_insertionSort _ _
    have hne : sortedEntries fs a entries ≠ [] := by
      intro h0
      have hl := hperm.length_eq
      rw [h0] at hl
      simp at hl
    rcases hS : sortedEntries fs a entries with _ | ⟨h0, t⟩
    · exact absurd hS hne
    · rw [hS] at hsorted hperm
      have hhead : h0 = a.current_path ++ [dotdot] := by
        by_contra hne2
        have hmem : (a.current_path ++ [dotdot]) ∈ h0 :: t :=
          hperm.mem_iff.mpr (List.mem_cons_self _ _)
        have hmem2 : (a.current_path ++ [dotdot]) ∈ t := by
          rcases List.mem_cons.mp hmem with h | h
          · exact absurd h.symm hne2
          · exact h
        have hh0 : h0 ∈ (a.current_path ++ [dotdot]) :: entries :=
          hperm.mem_iff.mp (List.mem_cons_self _ _)
        have hh0e : h0 ∈ entries := by
          rcases List.mem_cons.mp hh0 with h | h
          · exact absurd h hne2
          · exact h
        apply (List.pairwise_cons.mp hsorted).1 _ hmem2
        unfold entryOrder
        rw [if_neg (hwf h0 hh0e), if_pos (sfts_parent_marker a.current_path)]
      subst hhead
      refine ⟨t, rfl, ?_⟩
      have htperm : t.Perm entries := List.Perm.cons_inv hperm
      apply pairwise_specOrder_of_sorted fs t (List.pairwise_cons.mp hsorted).2
      intro q hq
      exact hwf q (htperm.mem_iff.mp hq)
  · intro hpar
    rw [hitems]
    have hpi : parentItems a = [] := by
      unfold parentItems
      rw [if_neg (by simp [hpar])]
    have hperm : (sortedEntries fs a entries).Perm entries := by
      unfold sortedEntries
      rw [hpi]
      simpa using List.perm_insertionSort _ _
    apply pairwise_specOrder_of_sorted fs _ hsorted
    intro q hq
    exact hwf q (hperm.mem_iff.mp hq)

/-- C5 witness: the spec's Example 2 — `/home` with `b.txt`, `A.txt`,
`Zdir` loads as `.. , Zdir, A.txt, b.txt`. -/
theorem C5_snapshot_order_witness :
    (load_directory fsDemo appDemo).1.items
      = [["home", ".."], ["home", "Zdir"], ["home", "A.txt"], ["home", "b.txt"]] ∧
    (load_directory fsDemo appDemo).2 = true ∧
    (∃ t, (load_directory fsDemo appDemo).1.items = (["home"] ++ [dotdot]) :: t ∧
      t.Pairwise (specOrder fsDemo)) := by
  have h := C5_snapshot_order fsDemo appDemo
    [["home", "b.txt"], ["home", "A.txt"], ["home", "Zdir"]] rfl (by decide)
  exact ⟨by decide, h.1, h.2.1 rfl⟩

/-! ## Lemmas about filter monotonicity -/

theorem matchEntry_append_isSome (q : List Char) (x : Char) (ip : Nat × Path)
    (h : (matchEntry (q ++ [x]) ip).isSome = true) :
    (matchEntry q ip).isSome = true := by
  unfold matchEntry at h ⊢
  rcases hn : safe_filename_for_matching ip.2 with _ | filename
  · simp [hn] at h
  · simp only [hn] at h ⊢
    rcases hm : fuzzy_match (q ++ [x]) filename.data with _ | m
    · simp [hm] at h
    · have h1 : (fuzzy_match (q ++ [x]) filename.data).isSome = true := by
        rw [hm]
        rfl
      have h2 := fuzzy_match_append_isSome q x filename.data h1
      rcases hm2 : fuzzy_match q filename.data with _ | m2
      · rw [hm2] at h2
        simp at h2
      · simp [hm2]

theorem length_filterMap_le {α β γ : Type _} (l : List α) (f : α → Option β) (g : α → Option γ)
    (h : ∀ u, (f u).isSome = true → (g u).isSome = true) :
    (l.filterMap f).length ≤ (l.filterMap g).length := by
  induction l with
  | nil => simp
  | cons u l ih =>
    rcases hf : f u with _ | b <;> rcases hg : g u with _ | d
    · simpa [List.filterMap_cons, hf, hg] using ih
    · simp only [List.filterMap_cons, hf, hg, List.length_cons]
      omega
    · have hx := h u
      rw [hf, hg] at hx
      simp at hx
    · simp only [List.filterMap_cons, hf, hg, List.length_cons]
      omega

/-- C7: for a fixed snapshot, appending a character to the query never
increases the number of ranked matches produced by the rebuild. -/
theorem C7_append_narrows_matches (fs : FS) (a : App) (q : List Char) (x : Char) :
    ((update_filter fs { a with filter := q ++ [x] }).filtered_items).length ≤
      ((update_filter fs { a with filter := q }).filtered_items).length := by
  have h1 : (update_filter fs { a with filter := q ++ [x] }).filtered_items
      = computeFiltered (q ++ [x]) a.items := rfl
  have h2 : (update_filter fs { a with filter := q }).filtered_items
      = computeFiltered q a.items := rfl
  rw [h1, h2]
  unfold computeFiltered
  rw [List.length_insertionSort, List.length_insertionSort]
  exact length_filterMap_le _ _ _ (fun ip => matchEntry_append_isSome q x ip)

/-- C8 counterexample: from a consistent state with the cursor moved to
index 1, appending `a` and erasing it restores the ranked list but resets
the cursor to index 0 instead of restoring it. -/
theorem C8_cursor_not_restored :
    appC8.list_state = some 1 ∧
    (remove_char_from_filter fsFail (add_char_to_filter fsFail appC8 'a')).filtered_items
      = appC8.filtered_items ∧
    (remove_char_from_filter fsFail (add_char_to_filter fsFail appC8 'a')).list_state
      ≠ appC8.list_state := by decide

/-- C8 amended: when the ranked list is current for the present query,
appending a character and immediately erasing it restores the query and the
exact ranked list, but the cursor is reset to `some 0` (or `none` when the
list is empty) rather than restored to its pre-append position. -/
theorem C8_append_erase_restores_ranked_list (fs : FS) (a : App) (c : Char)
    (h : a.filtered_items = computeFiltered a.filter a.items) :
    (remove_char_from_filter fs (add_char_to_filter fs a c)).filter = a.filter ∧
    (remove_char_from_filter fs (add_char_to_filter fs a c)).filtered_items
      = a.filtered_items ∧
    (remove_char_from_filter fs (add_char_to_filter fs a c)).list_state
      = (if a.filtered_items = [] then none else some 0) := by
  refine ⟨?_, ?_, ?_⟩
  · show (a.filter ++ [c]).dropLast = a.filter
    exact List.dropLast_concat
  · show computeFiltered ((a.filter ++ [c]).dropLast) a.items = a.filtered_items
    rw [List.dropLast_concat, h]
  · show (if computeFiltered ((a.filter ++ [c]).dropLast) a.items = [] then none else some 0)
        = (if a.filtered_items = [] then none else some 0)
    rw [List.dropLast_concat, h]

/-- C8 amended witness at the concrete two-file state. -/
theorem C8_append_erase_restores_ranked_list_witness :
    (remove_char_from_filter fsFail (add_char_to_filter fsFail appC8 'a')).filter
      = appC8.filter ∧
    (remove_char_from_filter fsFail (add_char_to_filter fsFail appC8 'a')).filtered_items
      = appC8.filtered_items ∧
    (remove_char_from_filter fsFail (add_char_to_filter fsFail appC8 'a')).list_state
      = (if appC8.filtered_items = [] then none else some 0) :=
  C8_append_erase_restores_ranked_list fsFail appC8 'a' (by decide)

/-- C9: for a readable text file (no denied extension, no NUL byte), the
preview loader truncates content above 50,000 bytes to exactly the first
50,000 bytes followed by a marker naming the original byte count, and
returns content at or below the threshold unmodified. -/
theorem C9_preview_truncation (fs : FS) (p : Path) (content : String)
    (hread : fs.readFile p = some content)
    (hext : is_binary_ext p = false)
    (hnull : Char.ofNat 0 ∉ content.data) :
    (50000 < content.length →
      read_file_content fs p = some (String.mk (content.data.take 50000)
        ++ "...\n\n[File truncated - " ++ toString content.length ++ " bytes total]")) ∧
    (content.length ≤ 50000 → read_file_content fs p = some content) := by
  simp only [read_file_content, hext, Bool.false_eq_true, if_false, hread]
  rw [if_neg hnull]
  constructor
  · intro hlen
    rw [if_pos hlen]
  · intro hlen
    rw [if_neg (by omega)]

/-- C9 witness: a 50,001-byte file of `x` characters is truncated to its
first 50,000 bytes plus the marker naming 50,001 bytes. -/
theorem C9_preview_truncation_witness :
    read_file_content fsBig ["d", "big.txt"]
      = some (String.mk ((String.mk (List.replicate 50001 'x')).data.take 50000)
          ++ "...\n\n[File truncated - "
          ++ toString (String.mk (List.replicate 50001 'x')).length ++ " bytes total]") := by
  have hnull : Char.ofNat 0 ∉ (String.mk (List.replicate 50001 'x')).data := by
    show Char.ofNat 0 ∉ List.replicate 50001 'x'
    rw [List.mem_replicate]
    intro hx
    exact absurd hx.2 (by decide)
  have hlen : 50000 < (String.mk (List.replicate 50001 'x')).length := by
    show 50000 < (List.replicate 50001 'x').length
    rw [List.length_replicate]
    omega
  have h := C9_preview_truncation fsBig ["d", "big.txt"] (String.mk (List.replicate 50001 'x'))
    rfl (by decide) hnull
  exact h.1 hlen

/-- C10: a successful match of a non-empty pattern can have a strictly
negative score — the length penalty can exceed all bonuses (here a one-char
pattern against a 31-char candidate scores 10 + 15 - 31 = -6). -/
theorem C10_negative_score_possible :
    (['a'] : List Char) ≠ [] ∧
    ∃ m, fuzzy_match ['a'] ('a' :: List.replicate 30 'b') = some m ∧ m.score < 0 :=
  ⟨by decide, ⟨{ score := -6, matched_indices := [0] }, by decide, by decide⟩⟩

end Rats
